import Mathlib

/-!
Verification of the sauron diff/patch core against its design specification.

The virtual-tree data model, the diff engine and the patch-application engine
live in crates that are not part of this source snapshot (only their tests and
the DomUpdater caller are); they are modelled here from the specification text,
with path conventions fixed by the expected outputs asserted in
src/tests/diff_patch_test.rs and src/tests/html_test.rs.  The DomUpdater and
its update_dom and patch_dom entry points are embedded directly from
src/crates/sauron-core/src/dom/dom_updater.rs.
-/

namespace Sauron

/-- Modelled from the spec (section 3, Attribute Model): the variants of an
attribute value.  Plain values and style declarations are compared by value;
event listeners and function values are opaque handles, modelled as natural
numbers standing for reference identity. -/
inductive AttributeValue where
  | Plain (v : String)
  | Style (decls : List (String × String))
  | EventListener (handle : Nat)
  | FunctionValue (handle : Nat)
  deriving DecidableEq

/-- Modelled from the spec (section 3): an attribute is a named, possibly
multi-valued property with an optional namespace. -/
structure Attribute where
  ns : Option String
  name : String
  values : List AttributeValue
  deriving DecidableEq

/-- Modelled from the spec (section 3, Node): a virtual-tree node is either an
element with tag, attributes, ordered children and a self-closing flag, or a
text leaf. -/
inductive Node where
  | Element (tag : String) (attrs : List Attribute) (children : List Node) (selfClosing : Bool)
  | Text (content : String)

mutual
/-- Structural size of a node, used as recursion fuel for the diff engine. -/
def nodeSize : Node → Nat
  | .Text _ => 1
  | .Element _ _ cs _ => 1 + nodeSizeList cs
/-- Structural size of a list of nodes. -/
def nodeSizeList : List Node → Nat
  | [] => 0
  | c :: cs => nodeSize c + nodeSizeList cs
end

/-- Modelled from the spec (section 3, Patch): the patch variants produced by
the diff engine.  Replace and remove patches carry the tag of the matched old
element when applicable, as the expected patches in the tests do. -/
inductive Patch where
  | addAttributes (tag : String) (path : List Nat) (attrs : List Attribute)
  | removeAttributes (tag : String) (path : List Nat) (attrs : List Attribute)
  | replaceNode (tag : Option String) (path : List Nat) (node : Node)
  | appendChildren (tag : String) (path : List Nat) (children : List Node)
  | removeNode (tag : Option String) (path : List Nat)
  | changeText (path : List Nat) (content : String)

/-- The tree path an emitted patch is addressed at. -/
def Patch.path : Patch → List Nat
  | .addAttributes _ p _ => p
  | .removeAttributes _ p _ => p
  | .replaceNode _ p _ => p
  | .appendChildren _ p _ => p
  | .removeNode _ p => p
  | .changeText p _ => p

/-- The tag of an element node, none for a text leaf. -/
def tagOf : Node → Option String
  | .Element t _ _ _ => some t
  | .Text _ => none

/-- Whether an attribute carries an event-listener value, making it an
event attribute: listeners are opaque and never compared by value. -/
def attrIsEvent (a : Attribute) : Bool :=
  a.values.any fun v =>
    match v with
    | .EventListener _ => true
    | _ => false

/-- Modelled from the spec (section 3, attribute merge invariant): fold one
declaration into an accumulator, concatenating values onto an existing
attribute of the same name or appending a first declaration at the end. -/
def mergeStep (acc : List Attribute) (a : Attribute) : List Attribute :=
  if acc.any fun b => b.name = a.name then
    acc.map fun b =>
      if b.name = a.name then { b with values := b.values ++ a.values } else b
  else acc ++ [a]

/-- Modelled from the spec (section 3): multiple declarations of the same
attribute name are folded into a single attribute carrying the concatenated
values sequence, before comparison or emission. -/
def mergeAttributes (attrs : List Attribute) : List Attribute :=
  attrs.foldl mergeStep []

/-- The names of the event attributes among a list of attributes. -/
def eventNames (attrs : List Attribute) : List String :=
  (attrs.filter attrIsEvent).map fun a => a.name

/-- Whether every name in the first list occurs in the second. -/
def subsetNames (xs ys : List String) : Bool :=
  xs.all fun x => ys.contains x

/-- Whether two name lists denote the same set of names. -/
def sameNameSet (xs ys : List String) : Bool :=
  subsetNames xs ys && subsetNames ys xs

/-- Modelled from the spec (section 4.1 step 3): the changed or added
non-listener attributes, with values taken from the new side as merged. -/
def addedChangedAttrs (oldA newA : List Attribute) : List Attribute :=
  newA.filter fun n =>
    !attrIsEvent n &&
      match oldA.find? fun o => o.name = n.name with
      | some o => decide (o.values ≠ n.values)
      | none => true

/-- Modelled from the spec (section 4.1 step 3): the removed attributes, whose
name is present in old and absent from new, values taken from the old side. -/
def removedAttrs (oldA newA : List Attribute) : List Attribute :=
  oldA.filter fun o => !(newA.any fun n => n.name = o.name)

/-- Modelled from the spec (section 4.1 step 3): at most one AddAttributes and
one RemoveAttributes patch per node, AddAttributes first. -/
def attrDiffPatches (tag : String) (oldM newM : List Attribute) (p : List Nat) : List Patch :=
  (if (addedChangedAttrs oldM newM).isEmpty then []
   else [.addAttributes tag p (addedChangedAttrs oldM newM)]) ++
    (if (removedAttrs oldM newM).isEmpty then []
     else [.removeAttributes tag p (removedAttrs oldM newM)])

/-- Whether a node carries a key attribute among its declared attributes,
deciding keyed versus positional reconciliation for a child list. -/
def rawHasKey : Node → Bool
  | .Element _ attrs _ _ => attrs.any fun a => a.name = "key"
  | .Text _ => false

/-- The key of a node: the values of its merged attribute named key. -/
def getKey : Node → Option (List AttributeValue)
  | .Element _ attrs _ _ =>
    ((mergeAttributes attrs).find? fun a => a.name = "key").map fun a => a.values
  | .Text _ => none

/-- How many children of a list carry the given key. -/
def keyCount (k : List AttributeValue) (l : List Node) : Nat :=
  ((l.map getKey).filter fun x => x = some k).length

/-- The children of a list paired with their indices, starting at a base. -/
def enumFrom : Nat → List Node → List (Nat × Node)
  | _, [] => []
  | i, c :: cs => (i, c) :: enumFrom (i + 1) cs

/-- The indexed child holding the j-th occurrence of the given key. -/
def findKeyOcc (k : List AttributeValue) : Nat → List (Nat × Node) → Option (Nat × Node)
  | _, [] => none
  | j, (i, c) :: rest =>
    if getKey c = some k then
      if j = 0 then some (i, c) else findKeyOcc k (j - 1) rest
    else findKeyOcc k j rest

/-- Modelled from the spec (section 4.1 step 4, positional reconciliation,
pairwise part): recurse pairwise over the shared indices; if old is longer,
one RemoveNode patch per trailing old child at its own path, in ascending
index order. -/
def diffPairsPositional (d : Node → Node → List Nat → List Patch) :
    List Node → List Node → List Nat → Nat → List Patch
  | [], _, _, _ => []
  | o :: os, [], p, i =>
    .removeNode (tagOf o) (p ++ [i]) :: diffPairsPositional d os [] p (i + 1)
  | o :: os, n :: ns, p, i =>
    d o n (p ++ [i]) ++ diffPairsPositional d os ns p (i + 1)

/-- Modelled from the spec (section 4.1 step 4 and the ordering guarantee):
positional reconciliation of a child list emits, in pre-order, one batched
AppendChildren patch carrying the new trailing children at the parent path
when new is longer, before the pairwise recursion patches and the per-child
trailing RemoveNode patches. -/
def diffNonKeyedChildren (d : Node → Node → List Nat → List Patch)
    (olds news : List Node) (p : List Nat) (i : Nat) (ptag : String) : List Patch :=
  (if olds.length < news.length then [.appendChildren ptag p (news.drop olds.length)]
   else []) ++ diffPairsPositional d olds news p i

/-- Modelled from the spec (section 4.1 step 4, keyed reconciliation): for each
new child whose key occurrence has a counterpart among the old children,
recurse at the matched old child path.  Matching pairs the j-th occurrence of a
key in new with the j-th occurrence in old; matched children are addressed at
their old index, as fixed by the expected paths of the keyed test in
src/tests/diff_patch_test.rs. -/
def diffKeyedMatched (d : Node → Node → List Nat → List Patch)
    (olds news : List Node) (p : List Nat) : List (Nat × Node) → List Patch
  | [] => []
  | (t, n) :: rest =>
    (match getKey n with
     | none => []
     | some k =>
       match findKeyOcc k (keyCount k (news.take t)) (enumFrom 0 olds) with
       | some (i, o) => d o n (p ++ [i])
       | none => []) ++ diffKeyedMatched d olds news p rest

/-- Modelled from the spec (section 4.1 step 4, keyed reconciliation): for each
old child whose key occurrence has no counterpart among the new children, emit
RemoveNode at that child old path, after all matched-pair patches. -/
def diffKeyedRemovals (olds news : List Node) (p : List Nat) :
    List (Nat × Node) → List Patch
  | [] => []
  | (i, o) :: rest =>
    (match getKey o with
     | none => []
     | some k =>
       if keyCount k (olds.take i) < keyCount k news then []
       else [.removeNode (tagOf o) (p ++ [i])]) ++ diffKeyedRemovals olds news p rest

/-- Modelled from the spec (section 4.1): the recursive diff over an
(old node, new node, current path) triple, with structural fuel.  Type or tag
mismatch and listener-name-set mismatch emit a single ReplaceNode and stop;
otherwise attribute patches precede child reconciliation, which is keyed when
any child on either side carries a key attribute and positional otherwise;
two text leaves with different content emit ChangeText. -/
def goDiff : Nat → Node → Node → List Nat → List Patch
  | 0, _, _, _ => []
  | f + 1, old, new, p =>
    match old, new with
    | .Text a, .Text b => if a = b then [] else [.changeText p b]
    | .Text _, .Element t2 a2 c2 s2 => [.replaceNode none p (.Element t2 a2 c2 s2)]
    | .Element t1 _ _ _, .Text b => [.replaceNode (some t1) p (.Text b)]
    | .Element t1 a1 c1 _, .Element t2 a2 c2 s2 =>
      if t1 = t2 then
        if sameNameSet (eventNames (mergeAttributes a1)) (eventNames (mergeAttributes a2)) then
          attrDiffPatches t1 (mergeAttributes a1) (mergeAttributes a2) p ++
            (if (c1 ++ c2).any rawHasKey then
              diffKeyedMatched (goDiff f) c1 c2 p (enumFrom 0 c2) ++
                diffKeyedRemovals c1 c2 p (enumFrom 0 c1)
            else diffNonKeyedChildren (goDiff f) c1 c2 p 0 t1)
        else [.replaceNode (some t1) p (.Element t2 a2 c2 s2)]
      else [.replaceNode (some t1) p (.Element t2 a2 c2 s2)]

/-- Modelled from the spec (section 4.1 contract): diff consumes the old and
new trees and produces the ordered patch list, rooted at path [0] for the
implicit single-child wrapper indexing. -/
def diff (old new : Node) : List Patch :=
  goDiff (nodeSize old) old new [0]

mutual
/-- Whether a tree is entirely free of key attributes, so that every child
list in it is reconciled positionally. -/
def noKeys : Node → Bool
  | .Text _ => true
  | .Element _ attrs cs _ => (attrs.all fun a => a.name ≠ "key") && noKeysList cs
/-- Whether every tree in a list is free of key attributes. -/
def noKeysList : List Node → Bool
  | [] => true
  | c :: cs => noKeys c && noKeysList cs
end

mutual
/-- Structural equality of trees in the sense of the spec (section 8,
idempotence): same node kinds, same tags, equal merged attributes, and
pointwise structurally equal children. -/
def structEq : Node → Node → Bool
  | .Text a, .Text b => a = b
  | .Element t1 a1 c1 _, .Element t2 a2 c2 _ =>
    decide (t1 = t2) && decide (mergeAttributes a1 = mergeAttributes a2) && structEqList c1 c2
  | _, _ => false
/-- Pointwise structural equality of child lists. -/
def structEqList : List Node → List Node → Bool
  | [], [] => true
  | a :: as, b :: bs => structEq a b && structEqList as bs
  | _, _ => false
end

/-- Weak lexicographic order on tree paths: a path precedes its extensions and
any path diverging to a larger child index. -/
def pathLE : List Nat → List Nat → Bool
  | [], _ => true
  | _ :: _, [] => false
  | a :: as, b :: bs => decide (a < b) || (decide (a = b) && pathLE as bs)

/-- Whether a node, after a type check on kinds, mismatches for diff step 1:
different node kinds, or elements with different tags. -/
def typeTagMismatch : Node → Node → Bool
  | .Element t1 _ _ _, .Element t2 _ _ _ => decide (t1 ≠ t2)
  | .Text _, .Text _ => false
  | _, _ => true

/-- The listener handles carried by one attribute. -/
def attrListenerHandles (a : Attribute) : List Nat :=
  a.values.filterMap fun v =>
    match v with
    | .EventListener h => some h
    | _ => none

/-- The listener handles carried by a list of attributes. -/
def attrsListenerHandles (attrs : List Attribute) : List Nat :=
  attrs.flatMap attrListenerHandles

mutual
/-- The listener handles attached when a virtual subtree is materialized. -/
def nodeListenerHandles : Node → List Nat
  | .Text _ => []
  | .Element _ attrs cs _ => attrsListenerHandles attrs ++ nodeListenerHandlesList cs
/-- The listener handles attached when a list of subtrees is materialized. -/
def nodeListenerHandlesList : List Node → List Nat
  | [] => []
  | c :: cs => nodeListenerHandles c ++ nodeListenerHandlesList cs
end

/-- Set one attribute on a live element: overwrite the attribute of the same
name or append a new one. -/
def setAttr (attrs : List Attribute) (a : Attribute) : List Attribute :=
  if attrs.any fun b => b.name = a.name then
    attrs.map fun b => if b.name = a.name then a else b
  else attrs ++ [a]

/-- Modelled from the spec (section 4.2 and 6, resolve): descend from a live
node along a path of child indices and rewrite the addressed node, failing when
a segment does not resolve. -/
def updateAt (f : Node → Option Node) : Node → List Nat → Option Node
  | n, [] => f n
  | .Element t a cs sc, i :: rest =>
    match cs.get? i with
    | some c => (updateAt f c rest).map fun c2 => .Element t a (cs.set i c2) sc
    | none => none
  | .Text _, _ :: _ => none

/-- Modelled from the spec (section 4.2, RemoveNode): descend to the parent of
the addressed node and detach that child, failing when the path does not
resolve; detaching the root itself is not representable in this model. -/
def removeAt : Node → List Nat → Option Node
  | _, [] => none
  | .Element t a cs sc, [i] =>
    if i < cs.length then some (.Element t a (cs.eraseIdx i) sc) else none
  | .Element t a cs sc, i :: rest =>
    match cs.get? i with
    | some c => (removeAt c rest).map fun c2 => .Element t a (cs.set i c2) sc
    | none => none
  | .Text _, _ :: _ => none

/-- Every patch path starts with the implicit wrapper index 0 selecting the
compared root itself; strip it before descending, failing otherwise. -/
def stripRoot : List Nat → Except String (List Nat)
  | 0 :: rest => .ok rest
  | _ => .error "PathResolutionFailure"

/-- Modelled from the spec (section 4.2, apply one patch): resolve the path of
the patch in the live tree and perform its mutation, returning the mutated
live tree together with the listener handles newly attached by this patch.
Focus tracking is not modelled; no claim depends on it. -/
def applyPatch (root : Node) : Patch → Except String (Node × List Nat)
  | .addAttributes _ p attrs => do
    let rest ← stripRoot p
    match updateAt
        (fun n =>
          match n with
          | .Element t a cs sc => some (.Element t (attrs.foldl setAttr a) cs sc)
          | .Text _ => none) root rest with
    | some root2 => .ok (root2, attrsListenerHandles attrs)
    | none => .error "PathResolutionFailure"
  | .removeAttributes _ p attrs => do
    let rest ← stripRoot p
    match updateAt
        (fun n =>
          match n with
          | .Element t a cs sc =>
            some (.Element t (a.filter fun b => !(attrs.any fun x => x.name = b.name)) cs sc)
          | .Text _ => none) root rest with
    | some root2 => .ok (root2, [])
    | none => .error "PathResolutionFailure"
  | .replaceNode _ p n => do
    let rest ← stripRoot p
    match updateAt (fun _ => some n) root rest with
    | some root2 => .ok (root2, nodeListenerHandles n)
    | none => .error "PathResolutionFailure"
  | .appendChildren _ p newChildren => do
    let rest ← stripRoot p
    match updateAt
        (fun n =>
          match n with
          | .Element t a cs sc => some (.Element t a (cs ++ newChildren) sc)
          | .Text _ => none) root rest with
    | some root2 => .ok (root2, nodeListenerHandlesList newChildren)
    | none => .error "PathResolutionFailure"
  | .removeNode _ p => do
    let rest ← stripRoot p
    match removeAt root rest with
    | some root2 => .ok (root2, [])
    | none => .error "PathResolutionFailure"
  | .changeText p s => do
    let rest ← stripRoot p
    match updateAt
        (fun n =>
          match n with
          | .Text _ => some (.Text s)
          | .Element _ _ _ _ => none) root rest with
    | some root2 => .ok (root2, [])
    | none => .error "PathResolutionFailure"

/-- Modelled from the spec (section 4.2, apply contract): apply a patch list
to the live tree in order, aborting at the first failure and surfacing it as
an error result; returns the mutated tree and the newly attached listener
handles.  This models the apply_patches patch function called by DomUpdater,
which is not part of this source snapshot. -/
def patch (root : Node) (patches : List Patch) : Except String (Node × List Nat) :=
  patches.foldlM
    (fun acc pt => (applyPatch acc.1 pt).map fun r => (r.1, acc.2 ++ r.2))
    (root, [])

/-- Embedded from src/crates/sauron-core/src/dom/dom_updater.rs: the DomUpdater
state.  The live root node is modelled structurally, active closures as the
list of registered listener handles, and the focused node as an opaque
optional handle. -/
structure DomUpdater where
  current_vdom : Node
  root_node : Node
  active_closures : List Nat
  focused_node : Option Nat

/-- Outcome of running a Rust function that may panic: a normal return value,
or a panic escaping the call (as from expect on an Err). -/
inductive RunResult (α : Type) where
  | ok (value : α)
  | panicked (msg : String)

/-- Embedded from src/crates/sauron-core/src/dom/dom_updater.rs update_dom:
diff the stored vdom against the incoming one, apply the patches to the live
root via patch and expect success (a patch error escapes as a panic carrying
the expect message), extend the active closures, store the new vdom and return
the total number of patches. -/
def update_dom (st : DomUpdater) (new_vdom : Node) : RunResult (DomUpdater × Nat) :=
  let patches := diff st.current_vdom new_vdom
  let total_patches := patches.length
  match patch st.root_node patches with
  | .error _ => .panicked "Error in patching the dom"
  | .ok (root2, closures) =>
    .ok ({ current_vdom := new_vdom, root_node := root2,
           active_closures := st.active_closures ++ closures,
           focused_node := st.focused_node }, total_patches)

/-- Embedded from src/crates/sauron-core/src/dom/dom_updater.rs patch_dom:
apply a given patch list blindly to the stored live root and expect success
(a patch error escapes as a panic carrying the expect message), extending the
active closures; the stored vdom is not touched. -/
def patch_dom (st : DomUpdater) (patches : List Patch) : RunResult DomUpdater :=
  match patch st.root_node patches with
  | .error _ => .panicked "Error in patching the dom"
  | .ok (root2, closures) =>
    .ok { st with root_node := root2, active_closures := st.active_closures ++ closures }

/-- A div element with a single class attribute, as in the truncation tests. -/
def divClass (c : String) : Node :=
  .Element "div" [⟨none, "class", [.Plain c]⟩] [] false

/-- The old tree of the truncation test truncate_children: a div with seven
class-bearing children. -/
def truncOld : Node :=
  .Element "div" []
    [divClass "class1", divClass "class2", divClass "class3", divClass "class4",
     divClass "class5", divClass "class6", divClass "class7"] false

/-- The new tree of the truncation test: only the first three children remain. -/
def truncNew : Node :=
  .Element "div" []
    [divClass "class1", divClass "class2", divClass "class3"] false

/-- A keyed article with a text child, as in the keyed reconciliation test. -/
def article (k txt : String) : Node :=
  .Element "article" [⟨none, "key", [.Plain k]⟩] [.Text txt] false

/-- Old tree of the keyed test text_changed_in_keyed_elements: a main element
holding a section with three keyed articles. -/
def keyedOld : Node :=
  .Element "main" [⟨none, "class", [.Plain "test4"]⟩]
    [.Element "section" [⟨none, "class", [.Plain "todo"]⟩]
      [article "1" "item1", article "2" "item2", article "3" "item3"] false] false

/-- New tree of the keyed test: the key-1 article is dropped and the key-3
article text is changed. -/
def keyedNew : Node :=
  .Element "main" [⟨none, "class", [.Plain "test4"]⟩]
    [.Element "section" [⟨none, "class", [.Plain "todo"]⟩]
      [article "2" "item2", article "3" "item3 with changes"] false] false

/-- Old element of the listener-removal test remove_events_will_become_replace_node:
a div carrying a click listener. -/
def clickDivOld : Node :=
  .Element "div" [⟨none, "click", [.EventListener 0]⟩] [] false

/-- New element of the listener-removal test: the same div without listeners. -/
def clickDivNew : Node := .Element "div" [] [] false

/-- Old element of the class-change test change_class_attribute: two separate
class declarations. -/
def classOld : Node :=
  .Element "div"
    [⟨none, "class", [.Plain "class1"]⟩, ⟨none, "class", [.Plain "class2"]⟩] [] false

/-- New element of the class-change test: the second class value differs. -/
def classNew : Node :=
  .Element "div"
    [⟨none, "class", [.Plain "class1"]⟩, ⟨none, "class", [.Plain "difference_class"]⟩] [] false

/-- A DomUpdater whose live root has desynchronized from its stored vdom, so
that applying the next diff fails path resolution. -/
def desyncedUpdater : DomUpdater :=
  { current_vdom := .Element "div" [] [.Text "x"] false
    root_node := .Text "live"
    active_closures := []
    focused_node := none }

/-- The new vdom submitted to the desynchronized DomUpdater. -/
def desyncedNewVdom : Node := .Element "div" [] [.Text "y"] false

/-- A DomUpdater in sync with its stored vdom, used to exercise a successful
update_dom call. -/
def syncedUpdater : DomUpdater :=
  { current_vdom := .Text "a"
    root_node := .Text "a"
    active_closures := []
    focused_node := none }

theorem one_le_nodeSize : ∀ n : Node, 1 ≤ nodeSize n
  | .Text _ => by simp [nodeSize]
  | .Element _ _ _ _ => by simp [nodeSize]

theorem nodeSize_mem_le {c : Node} : ∀ cs : List Node, c ∈ cs → nodeSize c ≤ nodeSizeList cs
  | _ :: cs, h => by
    rcases List.mem_cons.mp h with h | h
    · subst h; simp [nodeSizeList]
    · have := nodeSize_mem_le cs h
      simp [nodeSizeList]; omega

theorem nodeSize_child_lt {c : Node} {t : String} {a : List Attribute} {cs : List Node}
    {sc : Bool} (h : c ∈ cs) : nodeSize c < nodeSize (.Element t a cs sc) := by
  have := nodeSize_mem_le cs h
  simp [nodeSize]; omega

/-- C4: on the keyed reconciliation input of the test
text_changed_in_keyed_elements, diff yields exactly one ChangeText patch at
the key-3 article text node and one RemoveNode patch at the old path of the
key-1 article, ChangeText first. -/
theorem diff_keyed_text_change_and_removal :
    diff keyedOld keyedNew =
      [.changeText [0, 0, 2, 0] "item3 with changes",
       .removeNode (some "article") [0, 0, 0]] := rfl

/-- C8 counterexample: at this concrete desynchronized state the patch
application fails, yet update_dom does not surface the failure to its caller
as a result value: the expect call turns it into a panic escaping the call. -/
theorem update_dom_failure_panics_counterexample :
    patch desyncedUpdater.root_node (diff desyncedUpdater.current_vdom desyncedNewVdom) =
        .error "PathResolutionFailure" ∧
      update_dom desyncedUpdater desyncedNewVdom = .panicked "Error in patching the dom" :=
  ⟨rfl, rfl⟩

/-- C8 amended: whenever applying the patch list fails, the update_dom and
patch_dom entry points abort the current call with a panic carrying the
expect message, with no retry and no continuation past the failure. -/
theorem update_dom_patch_dom_failure_panics :
    (∀ st v e, patch st.root_node (diff st.current_vdom v) = .error e →
        update_dom st v = .panicked "Error in patching the dom") ∧
      ∀ st ps e, patch st.root_node ps = .error e →
        patch_dom st ps = .panicked "Error in patching the dom" := by
  constructor
  · intro st v e h
    simp [update_dom, h]
  · intro st ps e h
    simp [patch_dom, h]

theorem update_dom_patch_dom_failure_panics_witness :
    update_dom desyncedUpdater desyncedNewVdom = .panicked "Error in patching the dom" ∧
      patch_dom desyncedUpdater [Patch.changeText [0, 0] "y"] =
        .panicked "Error in patching the dom" :=
  ⟨update_dom_patch_dom_failure_panics.1 desyncedUpdater desyncedNewVdom
      "PathResolutionFailure" rfl,
   update_dom_patch_dom_failure_panics.2 desyncedUpdater [Patch.changeText [0, 0] "y"]
      "PathResolutionFailure" rfl⟩

/-- C10: whenever update_dom returns, the stored vdom is the new one that was
passed in and the returned count is the length of the diff of the previous
vdom against it. -/
theorem update_dom_sets_vdom_and_returns_patch_count :
    ∀ st v st2 n, update_dom st v = .ok (st2, n) →
      st2.current_vdom = v ∧ n = (diff st.current_vdom v).length := by
  intro st v st2 n h
  cases hp : patch st.root_node (diff st.current_vdom v) with
  | error e => simp [update_dom, hp] at h
  | ok r =>
    obtain ⟨root2, closures⟩ := r
    simp only [update_dom, hp] at h
    cases h
    exact ⟨rfl, rfl⟩

theorem update_dom_sets_vdom_and_returns_patch_count_witness :
    ({ current_vdom := Node.Text "a", root_node := Node.Text "a",
       active_closures := [], focused_node := none } : DomUpdater).current_vdom =
        Node.Text "a" ∧
      0 = (diff (Node.Text "a") (Node.Text "a")).length :=
  update_dom_sets_vdom_and_returns_patch_count syncedUpdater (Node.Text "a")
    { current_vdom := Node.Text "a", root_node := Node.Text "a",
      active_closures := [], focused_node := none } 0 rfl

/-- C1: for two elements with equal tag whose event-attribute name sets
differ, diff emits exactly one ReplaceNode patch carrying the new node at the
element path and nothing else, so no descendant patch and never an
AddAttributes or RemoveAttributes pair; instantiated by the listener-removal
test remove_events_will_become_replace_node. -/
theorem diff_listener_change_replaces_node :
    (∀ t a1 c1 s1 a2 c2 s2,
        sameNameSet (eventNames (mergeAttributes a1)) (eventNames (mergeAttributes a2)) = false →
        diff (.Element t a1 c1 s1) (.Element t a2 c2 s2) =
          [.replaceNode (some t) [0] (.Element t a2 c2 s2)]) ∧
      diff clickDivOld clickDivNew = [.replaceNode (some "div") [0] clickDivNew] := by
  constructor
  · intro t a1 c1 s1 a2 c2 s2 h
    show goDiff (nodeSize (Node.Element t a1 c1 s1)) _ _ _ = _
    cases hs : nodeSize (Node.Element t a1 c1 s1) with
    | zero => have := one_le_nodeSize (Node.Element t a1 c1 s1); omega
    | succ f => simp [goDiff, h]
  · rfl

theorem diff_listener_change_replaces_node_witness :
    diff clickDivOld clickDivNew = [.replaceNode (some "div") [0] clickDivNew] :=
  diff_listener_change_replaces_node.1 "div" [⟨none, "click", [.EventListener 0]⟩] [] false
    [] [] false rfl

/-- C7: when the compared nodes differ in kind, or are elements with different
tags, diff emits exactly one ReplaceNode patch carrying the new node at the
current path and no patch for anything inside either subtree; in particular
diffing a div against a span yields one ReplaceNode at path [0]. -/
theorem diff_type_mismatch_replaces_node :
    (∀ old new, typeTagMismatch old new = true →
        diff old new = [.replaceNode (tagOf old) [0] new]) ∧
      diff (.Element "div" [] [] false) (.Element "span" [] [] false) =
        [.replaceNode (some "div") [0] (.Element "span" [] [] false)] := by
  constructor
  · intro old new h
    show goDiff (nodeSize old) old new [0] = _
    cases hs : nodeSize old with
    | zero => have := one_le_nodeSize old; omega
    | succ f =>
      cases old with
      | Text a =>
        cases new with
        | Text b => simp [typeTagMismatch] at h
        | Element t2 a2 c2 s2 => simp [goDiff, tagOf]
      | Element t1 a1 c1 s1 =>
        cases new with
        | Text b => simp [goDiff, tagOf]
        | Element t2 a2 c2 s2 =>
          have ht : t1 ≠ t2 := by simpa [typeTagMismatch] using h
          simp [goDiff, tagOf, ht]
  · rfl

theorem diff_type_mismatch_replaces_node_witness :
    diff (.Text "Old") (.Element "div" [] [] false) =
      [.replaceNode none [0] (.Element "div" [] [] false)] :=
  diff_type_mismatch_replaces_node.1 (.Text "Old") (.Element "div" [] [] false) rfl

theorem attrDiffPatches_path {t : String} {m1 m2 : List Attribute} {p : List Nat} {P : Patch}
    (h : P ∈ attrDiffPatches t m1 m2 p) : P.path = p := by
  unfold attrDiffPatches at h
  rcases List.mem_append.mp h with h | h <;> split at h <;>
    simp only [List.not_mem_nil, List.mem_singleton] at h <;> subst h <;> rfl

theorem enumFrom_mem {i : Nat} {c : Node} :
    ∀ {s : Nat} {l : List Node}, (i, c) ∈ enumFrom s l → c ∈ l := by
  intro s l
  induction l generalizing s with
  | nil => intro h; simp [enumFrom] at h
  | cons x xs ih =>
    intro h
    rw [enumFrom] at h
    rcases List.mem_cons.mp h with h | h
    · cases h; exact List.mem_cons_self _ _
    · exact List.mem_cons_of_mem x (ih h)

theorem findKeyOcc_mem {k : List AttributeValue} {i : Nat} {c : Node} :
    ∀ {j : Nat} {l : List (Nat × Node)}, findKeyOcc k j l = some (i, c) → (i, c) ∈ l := by
  intro j l
  induction l generalizing j with
  | nil => intro h; simp [findKeyOcc] at h
  | cons x xs ih =>
    intro h
    obtain ⟨xi, xc⟩ := x
    rw [findKeyOcc] at h
    split at h
    · split at h
      · cases h; exact List.mem_cons_self _ _
      · exact List.mem_cons_of_mem _ (ih h)
    · exact List.mem_cons_of_mem _ (ih h)

theorem diffPairsPositional_scope {d : Node → Node → List Nat → List Patch}
    (hd : ∀ o n q P2, P2 ∈ d o n q → ∃ r, P2.path = q ++ r) :
    ∀ (olds news : List Node) (p : List Nat) (i : Nat) (P : Patch),
      P ∈ diffPairsPositional d olds news p i →
      ∃ j r, i ≤ j ∧ P.path = p ++ j :: r := by
  intro olds
  induction olds with
  | nil =>
    intro news p i P h
    rw [diffPairsPositional] at h
    exact absurd h (List.not_mem_nil P)
  | cons o os ih =>
    intro news p i P h
    cases news with
    | nil =>
      rw [diffPairsPositional] at h
      rcases List.mem_cons.mp h with h | h
      · subst h
        exact ⟨i, [], le_refl i, rfl⟩
      · obtain ⟨j, r, hj, hr⟩ := ih [] p (i + 1) P h
        exact ⟨j, r, by omega, hr⟩
    | cons n ns =>
      rw [diffPairsPositional] at h
      rcases List.mem_append.mp h with h | h
      · obtain ⟨r, hr⟩ := hd o n (p ++ [i]) P h
        exact ⟨i, r, le_refl i, by rw [hr, List.append_assoc]; rfl⟩
      · obtain ⟨j, r, hj, hr⟩ := ih ns p (i + 1) P h
        exact ⟨j, r, by omega, hr⟩

theorem diffNonKeyedChildren_scope {d : Node → Node → List Nat → List Patch}
    (hd : ∀ o n q P2, P2 ∈ d o n q → ∃ r, P2.path = q ++ r)
    (olds news : List Node) (p : List Nat) (i : Nat) (ptag : String) (P : Patch)
    (h : P ∈ diffNonKeyedChildren d olds news p i ptag) :
    P.path = p ∨ ∃ j r, i ≤ j ∧ P.path = p ++ j :: r := by
  rw [diffNonKeyedChildren] at h
  rcases List.mem_append.mp h with h | h
  · split at h
    · simp only [List.mem_singleton] at h
      subst h
      exact Or.inl rfl
    · exact absurd h (List.not_mem_nil P)
  · exact Or.inr (diffPairsPositional_scope hd olds news p i P h)

theorem diffKeyedMatched_path {d : Node → Node → List Nat → List Patch}
    (hd : ∀ o n q P2, P2 ∈ d o n q → ∃ r, P2.path = q ++ r)
    {olds news : List Node} {p : List Nat} :
    ∀ {entries : List (Nat × Node)} {P : Patch},
      P ∈ diffKeyedMatched d olds news p entries → ∃ r, P.path = p ++ r := by
  intro entries
  induction entries with
  | nil => intro P h; simp [diffKeyedMatched] at h
  | cons e rest ih =>
    intro P h
    obtain ⟨t, n⟩ := e
    rw [diffKeyedMatched] at h
    rcases List.mem_append.mp h with h | h
    · cases hk : getKey n with
      | none => rw [hk] at h; exact absurd h (List.not_mem_nil P)
      | some k =>
        rw [hk] at h
        have h2 : P ∈ (match findKeyOcc k (keyCount k (news.take t)) (enumFrom 0 olds) with
            | some (i, o) => d o n (p ++ [i])
            | none => ([] : List Patch)) := h
        cases hf : findKeyOcc k (keyCount k (news.take t)) (enumFrom 0 olds) with
        | none => rw [hf] at h2; exact absurd h2 (List.not_mem_nil P)
        | some ic =>
          obtain ⟨i, o⟩ := ic
          rw [hf] at h2
          obtain ⟨r, hr⟩ := hd o n (p ++ [i]) P h2
          exact ⟨i :: r, by rw [hr, List.append_assoc]; rfl⟩
    · exact ih h

theorem diffKeyedRemovals_path {olds news : List Node} {p : List Nat} :
    ∀ {entries : List (Nat × Node)} {P : Patch},
      P ∈ diffKeyedRemovals olds news p entries → ∃ r, P.path = p ++ r := by
  intro entries
  induction entries with
  | nil => intro P h; simp [diffKeyedRemovals] at h
  | cons e rest ih =>
    intro P h
    obtain ⟨i, o⟩ := e
    rw [diffKeyedRemovals] at h
    rcases List.mem_append.mp h with h | h
    · split at h
      · simp at h
      · split at h
        · simp at h
        · simp only [List.mem_singleton] at h
          subst h
          exact ⟨[i], rfl⟩
    · exact ih h

theorem goDiff_path_extends :
    ∀ (f : Nat) (old new : Node) (p : List Nat) (P : Patch),
      P ∈ goDiff f old new p → ∃ r, P.path = p ++ r := by
  intro f
  induction f with
  | zero => intro old new p P h; simp [goDiff] at h
  | succ f ih =>
    intro old new p P h
    have hd : ∀ o n q P2, P2 ∈ goDiff f o n q → ∃ r, P2.path = q ++ r :=
      fun o n q P2 => ih o n q P2
    cases old with
    | Text a =>
      cases new with
      | Text b =>
        rw [goDiff] at h
        split at h
        · simp at h
        · simp only [List.mem_singleton] at h
          subst h; exact ⟨[], by simp [Patch.path]⟩
      | Element t2 a2 c2 s2 =>
        rw [goDiff] at h
        simp only [List.mem_singleton] at h
        subst h; exact ⟨[], by simp [Patch.path]⟩
    | Element t1 a1 c1 s1 =>
      cases new with
      | Text b =>
        rw [goDiff] at h
        simp only [List.mem_singleton] at h
        subst h; exact ⟨[], by simp [Patch.path]⟩
      | Element t2 a2 c2 s2 =>
        rw [goDiff] at h
        split at h
        · split at h
          · rcases List.mem_append.mp h with h | h
            · exact ⟨[], by rw [attrDiffPatches_path h]; simp⟩
            · split at h
              · rcases List.mem_append.mp h with h | h
                · exact diffKeyedMatched_path hd h
                · exact diffKeyedRemovals_path h
              · rcases diffNonKeyedChildren_scope hd c1 c2 p 0 t1 P h with hp | ⟨j, r, _, hr⟩
                · exact ⟨[], by rw [hp]; simp⟩
                · exact ⟨j :: r, hr⟩
          · simp only [List.mem_singleton] at h
            subst h; exact ⟨[], by simp [Patch.path]⟩
        · simp only [List.mem_singleton] at h
          subst h; exact ⟨[], by simp [Patch.path]⟩

/-- C9: every patch emitted by diff is addressed at a non-empty path whose
first element is 0, the index of the compared top-level node under the
implicit wrapper. -/
theorem diff_paths_start_at_zero :
    ∀ (old new : Node) (P : Patch), P ∈ diff old new →
      P.path ≠ [] ∧ P.path.head? = some 0 := by
  intro old new P h
  obtain ⟨r, hr⟩ := goDiff_path_extends (nodeSize old) old new [0] P h
  rw [hr]
  simp

theorem diff_paths_start_at_zero_witness :
    (Patch.changeText [0] "New").path ≠ [] ∧
      (Patch.changeText [0] "New").path.head? = some 0 :=
  diff_paths_start_at_zero (.Text "Old") (.Text "New") (Patch.changeText [0] "New")
    (List.mem_singleton.mpr rfl)

theorem dpp_nil (d : Node → Node → List Nat → List Patch) (news : List Node) (p : List Nat)
    (i : Nat) : diffPairsPositional d [] news p i = [] := by
  rw [diffPairsPositional]

theorem dpp_cons_nil (d : Node → Node → List Nat → List Patch) (o : Node) (os : List Node)
    (p : List Nat) (i : Nat) :
    diffPairsPositional d (o :: os) [] p i =
      .removeNode (tagOf o) (p ++ [i]) :: diffPairsPositional d os [] p (i + 1) := by
  rw [diffPairsPositional]

theorem dpp_cons_cons (d : Node → Node → List Nat → List Patch) (o n : Node)
    (os ns : List Node) (p : List Nat) (i : Nat) :
    diffPairsPositional d (o :: os) (n :: ns) p i =
      d o n (p ++ [i]) ++ diffPairsPositional d os ns p (i + 1) := by
  rw [diffPairsPositional]

theorem diffPairsPositional_truncation (d : Node → Node → List Nat → List Patch) :
    ∀ (olds news : List Node) (p : List Nat) (i : Nat),
      news.length ≤ olds.length →
      diffPairsPositional d olds news p i =
        diffPairsPositional d (olds.take news.length) news p i ++
          (enumFrom (i + news.length) (olds.drop news.length)).map fun e =>
            Patch.removeNode (tagOf e.2) (p ++ [e.1]) := by
  intro olds
  induction olds with
  | nil =>
    intro news p i h
    have hn : news = [] := List.eq_nil_of_length_eq_zero (by simpa using h)
    subst hn
    simp [dpp_nil, enumFrom]
  | cons o os ih =>
    intro news p i h
    cases news with
    | nil =>
      have ih2 := ih [] p (i + 1) (by simp)
      simp only [List.length_nil, List.take_zero, List.drop_zero, Nat.add_zero,
        dpp_nil, List.nil_append] at ih2 ⊢
      rw [dpp_cons_nil, ih2, enumFrom]
      simp
    | cons n ns =>
      have hlen : ns.length ≤ os.length := by simpa using h
      have ih2 := ih ns p (i + 1) hlen
      simp only [List.length_cons, List.take_succ_cons, List.drop_succ_cons]
      rw [dpp_cons_cons, dpp_cons_cons, ih2, List.append_assoc]
      have harith : i + (ns.length + 1) = i + 1 + ns.length := by omega
      rw [harith]

theorem diffNonKeyedChildren_truncation (d : Node → Node → List Nat → List Patch) :
    ∀ (olds news : List Node) (p : List Nat) (i : Nat) (ptag : String),
      news.length ≤ olds.length →
      diffNonKeyedChildren d olds news p i ptag =
        diffNonKeyedChildren d (olds.take news.length) news p i ptag ++
          (enumFrom (i + news.length) (olds.drop news.length)).map fun e =>
            Patch.removeNode (tagOf e.2) (p ++ [e.1]) := by
  intro olds news p i ptag h
  rw [diffNonKeyedChildren, diffNonKeyedChildren,
    if_neg (by omega), if_neg (by rw [List.length_take]; omega)]
  simp only [List.nil_append]
  exact diffPairsPositional_truncation d olds news p i h

/-- C5: in positional reconciliation, when the old child list is longer than
the new one, diff emits one separate RemoveNode patch per trailing old child,
each at its own path, in ascending index order, after the patches of the
shared prefix; in particular the seven-to-three truncation test yields exactly
four RemoveNode patches at paths [0,3] through [0,6]. -/
theorem diff_truncation_removes_per_child :
    (∀ (d : Node → Node → List Nat → List Patch) (olds news : List Node) (p : List Nat)
        (i : Nat) (ptag : String), news.length < olds.length →
        diffNonKeyedChildren d olds news p i ptag =
          diffNonKeyedChildren d (olds.take news.length) news p i ptag ++
            (enumFrom (i + news.length) (olds.drop news.length)).map fun e =>
              Patch.removeNode (tagOf e.2) (p ++ [e.1])) ∧
      diff truncOld truncNew =
        [.removeNode (some "div") [0, 3], .removeNode (some "div") [0, 4],
         .removeNode (some "div") [0, 5], .removeNode (some "div") [0, 6]] :=
  ⟨fun d olds news p i ptag h =>
    diffNonKeyedChildren_truncation d olds news p i ptag (Nat.le_of_lt h), rfl⟩

theorem diff_truncation_removes_per_child_witness :
    diffNonKeyedChildren (fun _ _ _ => []) [Node.Text "a", Node.Text "b"] [Node.Text "a"]
        [0] 0 "div" =
      diffNonKeyedChildren (fun _ _ _ => []) [Node.Text "a"] [Node.Text "a"] [0] 0 "div" ++
        (enumFrom 1 [Node.Text "b"]).map
          (fun e => Patch.removeNode (tagOf e.2) ([0] ++ [e.1])) :=
  diff_truncation_removes_per_child.1 (fun _ _ _ => [])
    [Node.Text "a", Node.Text "b"] [Node.Text "a"] [0] 0 "div" (by decide)

theorem find?_map_upsert (a : Attribute) (nm : String) :
    ∀ acc : List Attribute,
      ((acc.map fun b =>
          if b.name = a.name then { b with values := b.values ++ a.values } else b).find?
            fun b => b.name = nm) =
        (acc.find? fun b => b.name = nm).map
          fun b => if b.name = a.name then { b with values := b.values ++ a.values } else b := by
  intro acc
  induction acc with
  | nil => simp
  | cons b bs ih =>
    by_cases hn : b.name = nm
    · by_cases hb : b.name = a.name
      · have han : a.name = nm := by rw [← hb, hn]
        simp [List.find?_cons, hn, hb, han, ih]
      · have han : ¬a.name = nm := fun hc => hb (by rw [hn, ← hc])
        have han2 : ¬nm = a.name := fun hc => han hc.symm
        simp [List.find?_cons, hn, hb, han, han2, ih]
    · by_cases hb : b.name = a.name
      · have han : ¬a.name = nm := fun hc => hn (by rw [hb, hc])
        simp [List.find?_cons, hn, hb, han, ih]
      · simp [List.find?_cons, hn, hb, ih]

theorem mergeStep_names_nodup {acc : List Attribute} (a : Attribute)
    (h : (acc.map fun b => b.name).Nodup) :
    ((mergeStep acc a).map fun b => b.name).Nodup := by
  unfold mergeStep
  split
  · have hnames : ((acc.map fun b =>
        if b.name = a.name then { b with values := b.values ++ a.values } else b).map
          fun b => b.name) = acc.map fun b => b.name := by
      rw [List.map_map]
      refine List.map_congr_left fun b _ => ?_
      by_cases hb : b.name = a.name <;> simp [hb]
    rw [hnames]; exact h
  · rename_i hany
    rw [List.map_append]
    rw [List.nodup_append]
    refine ⟨h, by simp, ?_⟩
    intro x hx hy
    simp only [List.map_cons, List.map_nil, List.mem_singleton] at hy
    subst hy
    simp only [List.mem_map] at hx
    obtain ⟨b, hb, hbx⟩ := hx
    have : (acc.any fun b => b.name = a.name) = true :=
      List.any_eq_true.mpr ⟨b, hb, by simp [hbx]⟩
    simp [this] at hany

theorem mergeFold_names_nodup :
    ∀ (attrs acc : List Attribute), (acc.map fun b => b.name).Nodup →
      ((attrs.foldl mergeStep acc).map fun b => b.name).Nodup := by
  intro attrs
  induction attrs with
  | nil => intro acc h; simpa using h
  | cons a as ih =>
    intro acc h
    rw [List.foldl_cons]
    exact ih (mergeStep acc a) (mergeStep_names_nodup a h)

theorem mergeFold_find? :
    ∀ (attrs acc : List Attribute) (nm : String),
      (((attrs.foldl mergeStep acc).find? fun b => b.name = nm).map fun b => b.values) =
        match acc.find? fun b => b.name = nm with
        | some b =>
          some (b.values ++ (attrs.filter fun x => x.name = nm).flatMap fun x => x.values)
        | none =>
          if (attrs.filter fun x => x.name = nm).isEmpty then none
          else some ((attrs.filter fun x => x.name = nm).flatMap fun x => x.values) := by
  intro attrs
  induction attrs with
  | nil =>
    intro acc nm
    cases hacc : acc.find? fun b => b.name = nm <;> simp [hacc]
  | cons a as ih =>
    intro acc nm
    rw [List.foldl_cons]
    by_cases hnm : a.name = nm
    · have hfilter : ((a :: as).filter fun x => x.name = nm) =
          a :: (as.filter fun x => x.name = nm) := by
        simp [List.filter_cons, hnm]
      cases hacc : acc.find? fun b => b.name = nm with
      | some b =>
        have hbname : b.name = nm := by
          have := List.find?_some hacc
          simpa using this
        have hany : (acc.any fun x => x.name = a.name) = true :=
          List.any_eq_true.mpr ⟨b, List.mem_of_find?_eq_some hacc, by simp [hbname, hnm]⟩
        have hba : b.name = a.name := by rw [hbname, hnm]
        have hstep : (mergeStep acc a).find? (fun x => x.name = nm) =
            some { b with values := b.values ++ a.values } := by
          unfold mergeStep
          rw [if_pos hany, find?_map_upsert, hacc]
          simp [hba, hbname]
        rw [ih (mergeStep acc a) nm, hstep, hfilter]
        simp [List.append_assoc]
      | none =>
        have hany : (acc.any fun x => x.name = a.name) = false := by
          rw [List.any_eq_false]
          intro b hb
          have := List.find?_eq_none.mp hacc b hb
          simpa [hnm] using this
        have hstep : (mergeStep acc a).find? (fun x => x.name = nm) = some a := by
          unfold mergeStep
          rw [if_neg (by simp [hany]), List.find?_append, hacc]
          simp [hnm]
        rw [ih (mergeStep acc a) nm, hstep, hfilter]
        simp
    · have hfilter : ((a :: as).filter fun x => x.name = nm) =
          as.filter fun x => x.name = nm := by
        simp [List.filter_cons, hnm]
      have hstep : (mergeStep acc a).find? (fun x => x.name = nm) =
          acc.find? fun x => x.name = nm := by
        unfold mergeStep
        split
        · rw [find?_map_upsert]
          cases hacc : acc.find? fun b => b.name = nm with
          | none => simp
          | some b =>
            have hbname : b.name = nm := by
              have := List.find?_some hacc
              simpa using this
            have hba : ¬b.name = a.name := fun hc => hnm (by rw [← hc, hbname])
            simp [hba]
        · rw [List.find?_append]
          cases hacc : acc.find? fun b => b.name = nm with
          | none => simp [hnm]
          | some b => simp
      rw [ih (mergeStep acc a) nm, hstep, hfilter]

/-- C6: merging folds all declarations of one attribute name into a single
attribute whose values are the concatenation of all declared values, with
names unique after the merge; and on the two-class-declaration input of the
test change_class_attribute, diff yields exactly one AddAttributes patch
carrying the single merged class attribute with both new values. -/
theorem merge_attributes_fold_and_single_add_patch :
    (∀ attrs : List Attribute, ((mergeAttributes attrs).map fun b => b.name).Nodup) ∧
      (∀ (attrs : List Attribute) (nm : String),
        (((mergeAttributes attrs).find? fun b => b.name = nm).map fun b => b.values) =
          if (attrs.filter fun x => x.name = nm).isEmpty then none
          else some ((attrs.filter fun x => x.name = nm).flatMap fun x => x.values)) ∧
      diff classOld classNew =
        [.addAttributes "div" [0]
          [⟨none, "class", [.Plain "class1", .Plain "difference_class"]⟩]] := by
  refine ⟨fun attrs => mergeFold_names_nodup attrs [] (by simp), fun attrs nm => ?_, rfl⟩
  have := mergeFold_find? attrs [] nm
  simpa [mergeAttributes] using this

mutual
theorem structEq_refl : ∀ n : Node, structEq n n = true
  | .Text s => by simp [structEq]
  | .Element t a cs sc => by simp [structEq, structEqList_refl cs]
theorem structEqList_refl : ∀ l : List Node, structEqList l l = true
  | [] => by simp [structEqList]
  | c :: cs => by simp [structEqList, structEq_refl c, structEqList_refl cs]
end

theorem subsetNames_refl (xs : List String) : subsetNames xs xs = true := by
  unfold subsetNames
  rw [List.all_eq_true]
  intro x hx
  exact List.elem_eq_true_of_mem hx

theorem sameNameSet_refl (xs : List String) : sameNameSet xs xs = true := by
  simp [sameNameSet, subsetNames_refl]

theorem find?_self_of_nodup :
    ∀ {m : List Attribute}, ((m.map fun b => b.name).Nodup) → ∀ {n : Attribute}, n ∈ m →
      (m.find? fun b => b.name = n.name) = some n := by
  intro m
  induction m with
  | nil => intro _ n h; simp at h
  | cons b bs ih =>
    intro hnd n hn
    rw [List.map_cons] at hnd
    have hnd2 := List.nodup_cons.mp hnd
    rcases List.mem_cons.mp hn with rfl | hn2
    · simp [List.find?_cons]
    · by_cases hb : b.name = n.name
      · exfalso
        have : n.name ∈ bs.map fun x => x.name := List.mem_map.mpr ⟨n, hn2, rfl⟩
        rw [← hb] at this
        exact hnd2.1 this
      · rw [List.find?_cons_of_neg _ (by simpa using hb)]
        exact ih hnd2.2 hn2

theorem addedChangedAttrs_self (m : List Attribute)
    (hnd : (m.map fun b => b.name).Nodup) : addedChangedAttrs m m = [] := by
  unfold addedChangedAttrs
  rw [List.filter_eq_nil_iff]
  intro n hn
  rw [find?_self_of_nodup hnd hn]
  simp

theorem removedAttrs_self (m : List Attribute) : removedAttrs m m = [] := by
  unfold removedAttrs
  rw [List.filter_eq_nil_iff]
  intro o ho
  simp [List.any_eq_true]
  exact ⟨o, ho, rfl⟩

theorem attrDiffPatches_self (t : String) (m : List Attribute) (p : List Nat)
    (hnd : (m.map fun b => b.name).Nodup) : attrDiffPatches t m m p = [] := by
  unfold attrDiffPatches
  rw [addedChangedAttrs_self m hnd, removedAttrs_self m]
  simp

theorem getKey_congr {o n : Node} (h : structEq o n = true) : getKey o = getKey n := by
  cases o with
  | Text a =>
    cases n with
    | Text b => rfl
    | Element t2 a2 c2 s2 => simp [structEq] at h
  | Element t1 a1 c1 s1 =>
    cases n with
    | Text b => simp [structEq] at h
    | Element t2 a2 c2 s2 =>
      have hm : mergeAttributes a1 = mergeAttributes a2 := by
        simp [structEq] at h
        exact h.1.2
      simp [getKey, hm]

theorem structEqList_map_getKey :
    ∀ {olds news : List Node}, structEqList olds news = true →
      olds.map getKey = news.map getKey := by
  intro olds
  induction olds with
  | nil =>
    intro news h
    cases news with
    | nil => rfl
    | cons n ns => simp [structEqList] at h
  | cons o os ih =>
    intro news h
    cases news with
    | nil => simp [structEqList] at h
    | cons n ns =>
      have h2 : structEq o n = true ∧ structEqList os ns = true := by
        simpa [structEqList] using h
      simp [getKey_congr h2.1, ih h2.2]

theorem structEqList_length {olds news : List Node} (h : structEqList olds news = true) :
    olds.length = news.length := by
  have h2 := congrArg List.length (structEqList_map_getKey h)
  simpa using h2

theorem structEqList_get? :
    ∀ {olds : List Node} {news : List Node} {t : Nat} {o n : Node},
      structEqList olds news = true →
      olds.get? t = some o → news.get? t = some n → structEq o n = true := by
  intro olds
  induction olds with
  | nil => intro news t o n h ho hn; simp at ho
  | cons x xs ih =>
    intro news t o n h ho hn
    cases news with
    | nil => simp [structEqList] at h
    | cons y ys =>
      have h2 : structEq x y = true ∧ structEqList xs ys = true := by
        simpa [structEqList] using h
      cases t with
      | zero =>
        have hx : x = o := by simpa using ho
        have hy : y = n := by simpa using hn
        subst hx; subst hy
        exact h2.1
      | succ t => exact ih h2.2 (by simpa using ho) (by simpa using hn)

theorem get?_of_drop_eq_cons :
    ∀ {l : List Node} {s : Nat} {n : Node} {rest : List Node}, l.drop s = n :: rest →
      l.get? s = some n ∧ l.drop (s + 1) = rest := by
  intro l
  induction l with
  | nil => intro s n rest h; simp at h
  | cons x xs ih =>
    intro s n rest h
    cases s with
    | zero =>
      simp only [List.drop_zero] at h
      cases h
      exact ⟨rfl, by simp⟩
    | succ s =>
      have h2 := ih (by simpa using h)
      simpa using h2

theorem keyCount_take_congr {k : List AttributeValue} {l1 l2 : List Node}
    (h : l1.map getKey = l2.map getKey) (s : Nat) :
    keyCount k (l1.take s) = keyCount k (l2.take s) := by
  unfold keyCount
  rw [List.map_take, List.map_take, h]

theorem keyCount_congr {k : List AttributeValue} {l1 l2 : List Node}
    (h : l1.map getKey = l2.map getKey) : keyCount k l1 = keyCount k l2 := by
  unfold keyCount
  rw [h]

theorem findKeyOcc_self :
    ∀ (l : List Node) (t : Nat) (c : Node) (k : List AttributeValue) (s : Nat),
      l.get? t = some c → getKey c = some k →
      findKeyOcc k (keyCount k (l.take t)) (enumFrom s l) = some (s + t, c) := by
  intro l
  induction l with
  | nil => intro t c k s h _; simp at h
  | cons x xs ih =>
    intro t c k s hget hkey
    cases t with
    | zero =>
      have hc : x = c := by simpa using hget
      subst hc
      rw [List.take_zero, enumFrom, findKeyOcc]
      simp [hkey, keyCount]
    | succ t =>
      have hget2 : xs.get? t = some c := by simpa using hget
      have harith : s + 1 + t = s + (t + 1) := by omega
      have ih2 := ih t c k (s + 1) hget2 hkey
      rw [harith] at ih2
      rw [List.take_succ_cons, enumFrom, findKeyOcc]
      by_cases hx : getKey x = some k
      · rw [if_pos hx]
        have hcount : keyCount k (x :: xs.take t) = keyCount k (xs.take t) + 1 := by
          simp [keyCount, List.filter_cons, hx]
        rw [hcount, if_neg (by omega)]
        simpa using ih2
      · rw [if_neg hx]
        have hcount : keyCount k (x :: xs.take t) = keyCount k (xs.take t) := by
          simp [keyCount, List.filter_cons, hx]
        rw [hcount]
        exact ih2

theorem keyCount_take_lt :
    ∀ {l : List Node} {i : Nat} {c : Node} {k : List AttributeValue},
      l.get? i = some c → getKey c = some k → keyCount k (l.take i) < keyCount k l := by
  intro l
  induction l with
  | nil => intro i c k h _; simp at h
  | cons x xs ih =>
    intro i c k hget hkey
    cases i with
    | zero =>
      have hc : x = c := by simpa using hget
      subst hc
      simp [keyCount, List.filter_cons, hkey]
    | succ i =>
      have hget2 : xs.get? i = some c := by simpa using hget
      have h2 := ih hget2 hkey
      by_cases hx : getKey x = some k <;>
        simp only [keyCount, List.take_succ_cons, List.map_cons, List.filter_cons, hx] at h2 ⊢ <;>
        simp at h2 ⊢ <;> omega

theorem diffPairsPositional_structEq_nil (d : Node → Node → List Nat → List Patch) :
    ∀ (olds news : List Node) (p : List Nat) (i : Nat),
      structEqList olds news = true →
      (∀ o n q, o ∈ olds → structEq o n = true → d o n q = []) →
      diffPairsPositional d olds news p i = [] := by
  intro olds
  induction olds with
  | nil =>
    intro news p i _ _
    exact dpp_nil d news p i
  | cons o os ih =>
    intro news p i hse hd
    cases news with
    | nil => simp [structEqList] at hse
    | cons n ns =>
      have h2 : structEq o n = true ∧ structEqList os ns = true := by
        simpa [structEqList] using hse
      rw [dpp_cons_cons, hd o n (p ++ [i]) (List.mem_cons_self o os) h2.1,
        ih ns p (i + 1) h2.2 fun o2 n2 q ho => hd o2 n2 q (List.mem_cons_of_mem o ho)]
      rfl

theorem diffNonKeyedChildren_structEq_nil (d : Node → Node → List Nat → List Patch) :
    ∀ (olds news : List Node) (p : List Nat) (i : Nat) (ptag : String),
      structEqList olds news = true →
      (∀ o n q, o ∈ olds → structEq o n = true → d o n q = []) →
      diffNonKeyedChildren d olds news p i ptag = [] := by
  intro olds news p i ptag hse hd
  have hlen := structEqList_length hse
  rw [diffNonKeyedChildren, if_neg (by omega)]
  simp only [List.nil_append]
  exact diffPairsPositional_structEq_nil d olds news p i hse hd

theorem diffKeyedMatched_structEq_nil (d : Node → Node → List Nat → List Patch)
    (olds news : List Node) (p : List Nat)
    (hse : structEqList olds news = true)
    (hd : ∀ t o n, olds.get? t = some o → news.get? t = some n → d o n (p ++ [t]) = []) :
    ∀ (rest : List Node) (s : Nat), news.drop s = rest →
      diffKeyedMatched d olds news p (enumFrom s rest) = [] := by
  intro rest
  induction rest with
  | nil =>
    intro s _
    rw [enumFrom, diffKeyedMatched]
  | cons n rest ih =>
    intro s hdrop
    obtain ⟨hget, hdrop2⟩ := get?_of_drop_eq_cons hdrop
    rw [enumFrom, diffKeyedMatched, ih (s + 1) hdrop2, List.append_nil]
    cases hk : getKey n with
    | none => rfl
    | some k =>
      cases hgo : olds.get? s with
      | none =>
        exfalso
        have hlen : olds.length = news.length := structEqList_length hse
        have h1 : olds.length ≤ s := List.get?_eq_none.mp hgo
        have h2 : news.get? s = none := List.get?_eq_none.mpr (by omega)
        rw [hget] at h2
        cases h2
      | some o =>
        have hko : getKey o = some k := by
          rw [getKey_congr (structEqList_get? hse hgo hget), hk]
        have hfind := findKeyOcc_self olds s o k 0 hgo hko
        rw [Nat.zero_add, keyCount_take_congr (structEqList_map_getKey hse) s] at hfind
        show (match findKeyOcc k (keyCount k (news.take s)) (enumFrom 0 olds) with
            | some (i, o2) => d o2 n (p ++ [i])
            | none => ([] : List Patch)) = []
        rw [hfind]
        exact hd s o n hgo hget

theorem diffKeyedRemovals_structEq_nil (olds news : List Node) (p : List Nat)
    (hse : structEqList olds news = true) :
    ∀ (rest : List Node) (s : Nat), olds.drop s = rest →
      diffKeyedRemovals olds news p (enumFrom s rest) = [] := by
  intro rest
  induction rest with
  | nil =>
    intro s _
    rw [enumFrom, diffKeyedRemovals]
  | cons o rest ih =>
    intro s hdrop
    obtain ⟨hget, hdrop2⟩ := get?_of_drop_eq_cons hdrop
    rw [enumFrom, diffKeyedRemovals, ih (s + 1) hdrop2, List.append_nil]
    cases hk : getKey o with
    | none => rfl
    | some k =>
      have hlt : keyCount k (olds.take s) < keyCount k news := by
        have h1 : keyCount k (olds.take s) < keyCount k olds := keyCount_take_lt hget hk
        have h2 : keyCount k olds = keyCount k news :=
          keyCount_congr (structEqList_map_getKey hse)
        omega
      show (if keyCount k (olds.take s) < keyCount k news then []
          else [Patch.removeNode (tagOf o) (p ++ [s])]) = []
      rw [if_pos hlt]

theorem goDiff_structEq_nil :
    ∀ (f : Nat) (old new : Node) (p : List Nat), nodeSize old ≤ f →
      structEq old new = true → goDiff f old new p = [] := by
  intro f
  induction f with
  | zero =>
    intro old new p hf _
    have := one_le_nodeSize old
    omega
  | succ f ih =>
    intro old new p hf hse
    cases old with
    | Text a =>
      cases new with
      | Text b =>
        have hab : a = b := by simpa [structEq] using hse
        subst hab
        rw [goDiff]
        simp
      | Element t2 a2 c2 s2 => simp [structEq] at hse
    | Element t1 a1 c1 s1 =>
      cases new with
      | Text b => simp [structEq] at hse
      | Element t2 a2 c2 s2 =>
        simp only [structEq, Bool.and_eq_true, decide_eq_true_eq] at hse
        obtain ⟨⟨ht, hm⟩, hcl⟩ := hse
        subst ht
        have hfuel : ∀ c : Node, c ∈ c1 → nodeSize c ≤ f := by
          intro c hc
          have h1 := @nodeSize_child_lt c t1 a1 c1 s1 hc
          omega
        simp only [goDiff]
        rw [if_pos trivial, ← hm,
          if_pos (sameNameSet_refl (eventNames (mergeAttributes a1))),
          attrDiffPatches_self t1 (mergeAttributes a1) p (mergeFold_names_nodup a1 [] (by simp))]
        simp only [List.nil_append]
        split
        · rw [diffKeyedMatched_structEq_nil (goDiff f) c1 c2 p hcl
              (fun t o n hgo hgn =>
                ih o n (p ++ [t]) (hfuel o (List.get?_mem hgo)) (structEqList_get? hcl hgo hgn))
              c2 0 rfl,
            diffKeyedRemovals_structEq_nil c1 c2 p hcl c1 0 rfl]
          rfl
        · exact diffNonKeyedChildren_structEq_nil (goDiff f) c1 c2 p 0 t1 hcl
            fun o n q ho hsn => ih o n q (hfuel o ho) hsn

/-- C3: diff of structurally equal trees is empty: for every tree the
self-diff is empty, and more generally trees with the same kinds, tags, equal
merged attributes and structurally equal children diff to the empty patch
list. -/
theorem diff_structEq_empty :
    (∀ T : Node, diff T T = []) ∧
      ∀ old new : Node, structEq old new = true → diff old new = [] := by
  have h2 : ∀ old new : Node, structEq old new = true → diff old new = [] := fun old new hse =>
    goDiff_structEq_nil (nodeSize old) old new [0] (Nat.le_refl _) hse
  exact ⟨fun T => h2 T T (structEq_refl T), h2⟩

theorem diff_structEq_empty_witness :
    diff classNew
      (.Element "div" [⟨none, "class", [.Plain "class1", .Plain "difference_class"]⟩] [] false) =
      [] :=
  diff_structEq_empty.2 classNew
    (.Element "div" [⟨none, "class", [.Plain "class1", .Plain "difference_class"]⟩] [] false)
    rfl

theorem pathLE_refl : ∀ p : List Nat, pathLE p p = true
  | [] => rfl
  | a :: as => by simp [pathLE, pathLE_refl as]

theorem pathLE_append : ∀ p u : List Nat, pathLE p (p ++ u) = true
  | [], _ => rfl
  | a :: as, u => by simp [pathLE, pathLE_append as u]

theorem pathLE_extend_lt :
    ∀ (p : List Nat) (i j : Nat) (u v : List Nat), i < j →
      pathLE (p ++ i :: u) (p ++ j :: v) = true
  | [], i, j, u, v, h => by simp [pathLE, h]
  | a :: as, i, j, u, v, h => by simp [pathLE, pathLE_extend_lt as i j u v h]

theorem attrDiffPatches_pairwise (t : String) (m1 m2 : List Attribute) (p : List Nat) :
    (attrDiffPatches t m1 m2 p).Pairwise fun P Q => pathLE P.path Q.path = true := by
  refine List.pairwise_of_forall_mem_list fun P hP Q hQ => ?_
  rw [attrDiffPatches_path hP, attrDiffPatches_path hQ]
  exact pathLE_refl p

theorem diffPairsPositional_ordered (d : Node → Node → List Nat → List Patch)
    (hp : ∀ o n q P, P ∈ d o n q → ∃ r, P.path = q ++ r) :
    ∀ (olds news : List Node) (p : List Nat) (i : Nat),
      (∀ o n q, o ∈ olds → n ∈ news →
        (d o n q).Pairwise fun P Q => pathLE P.path Q.path = true) →
      (diffPairsPositional d olds news p i).Pairwise
        fun P Q => pathLE P.path Q.path = true := by
  intro olds
  induction olds with
  | nil =>
    intro news p i _
    rw [dpp_nil]
    exact List.Pairwise.nil
  | cons o os ih =>
    intro news p i hw
    cases news with
    | nil =>
      rw [dpp_cons_nil, List.pairwise_cons]
      constructor
      · intro Q hQ
        obtain ⟨j, r2, hij, hq⟩ := diffPairsPositional_scope hp os [] p (i + 1) Q hQ
        have hPp : (Patch.removeNode (tagOf o) (p ++ [i])).path = p ++ i :: [] := rfl
        rw [hPp, hq]
        exact pathLE_extend_lt p i j [] r2 (by omega)
      · exact ih [] p (i + 1) fun o2 n2 q _ hn => absurd hn (List.not_mem_nil n2)
    | cons n ns =>
      rw [dpp_cons_cons, List.pairwise_append]
      refine ⟨hw o n (p ++ [i]) (List.mem_cons_self o os) (List.mem_cons_self n ns),
        ih ns p (i + 1)
          (fun o2 n2 q ho hn => hw o2 n2 q (List.mem_cons_of_mem o ho)
            (List.mem_cons_of_mem n hn)), ?_⟩
      intro P hP Q hQ
      obtain ⟨r, hr⟩ := hp o n (p ++ [i]) P hP
      have hr2 : P.path = p ++ i :: r := by rw [hr, List.append_assoc]; rfl
      obtain ⟨j, r2, hij, hq⟩ := diffPairsPositional_scope hp os ns p (i + 1) Q hQ
      rw [hr2, hq]
      exact pathLE_extend_lt p i j r r2 (by omega)

theorem diffNonKeyedChildren_ordered (d : Node → Node → List Nat → List Patch)
    (hp : ∀ o n q P, P ∈ d o n q → ∃ r, P.path = q ++ r)
    (olds news : List Node) (p : List Nat) (i : Nat) (ptag : String)
    (hw : ∀ o n q, o ∈ olds → n ∈ news →
      (d o n q).Pairwise fun P Q => pathLE P.path Q.path = true) :
    (diffNonKeyedChildren d olds news p i ptag).Pairwise
      fun P Q => pathLE P.path Q.path = true := by
  rw [diffNonKeyedChildren, List.pairwise_append]
  refine ⟨?_, diffPairsPositional_ordered d hp olds news p i hw, ?_⟩
  · split
    · exact List.pairwise_singleton _ _
    · exact List.Pairwise.nil
  · intro P hP Q hQ
    have hPp : P.path = p := by
      split at hP
      · simp only [List.mem_singleton] at hP
        subst hP
        rfl
      · exact absurd hP (List.not_mem_nil P)
    obtain ⟨j, r2, _, hq⟩ := diffPairsPositional_scope hp olds news p i Q hQ
    rw [hPp, hq]
    exact pathLE_append p (j :: r2)

theorem noKeysList_mem :
    ∀ {cs : List Node}, noKeysList cs = true → ∀ {c : Node}, c ∈ cs → noKeys c = true := by
  intro cs
  induction cs with
  | nil => intro _ c hc; exact absurd hc (List.not_mem_nil c)
  | cons x xs ih =>
    intro h c hc
    have h2 : noKeys x = true ∧ noKeysList xs = true := by simpa [noKeysList] using h
    rcases List.mem_cons.mp hc with rfl | hc2
    · exact h2.1
    · exact ih h2.2 hc2

theorem rawHasKey_false_of_noKeys {c : Node} (h : noKeys c = true) : rawHasKey c = false := by
  cases c with
  | Text s => rfl
  | Element t a cs sc =>
    have h2 : (a.all fun x => x.name ≠ "key") = true ∧ noKeysList cs = true := by
      simpa [noKeys] using h
    rw [rawHasKey, List.any_eq_false]
    intro x hx
    have := List.all_eq_true.mp h2.1 x hx
    simpa using this

theorem goDiff_ordered :
    ∀ (f : Nat) (old new : Node) (p : List Nat),
      noKeys old = true → noKeys new = true →
      (goDiff f old new p).Pairwise fun P Q => pathLE P.path Q.path = true := by
  intro f
  induction f with
  | zero =>
    intro old new p _ _
    rw [goDiff]
    exact List.Pairwise.nil
  | succ f ih =>
    intro old new p hko hkn
    cases old with
    | Text a =>
      cases new with
      | Text b =>
        simp only [goDiff]
        split
        · exact List.Pairwise.nil
        · exact List.pairwise_singleton _ _
      | Element t2 a2 c2 s2 =>
        simp only [goDiff]
        exact List.pairwise_singleton _ _
    | Element t1 a1 c1 s1 =>
      cases new with
      | Text b =>
        simp only [goDiff]
        exact List.pairwise_singleton _ _
      | Element t2 a2 c2 s2 =>
        have hc1 : noKeysList c1 = true := by
          have h2 : (a1.all fun x => x.name ≠ "key") = true ∧ noKeysList c1 = true := by
            simpa [noKeys] using hko
          exact h2.2
        have hc2 : noKeysList c2 = true := by
          have h2 : (a2.all fun x => x.name ≠ "key") = true ∧ noKeysList c2 = true := by
            simpa [noKeys] using hkn
          exact h2.2
        have hkey : ((c1 ++ c2).any rawHasKey) = false := by
          rw [List.any_eq_false]
          intro c hc
          rcases List.mem_append.mp hc with hc | hc
          · simp [rawHasKey_false_of_noKeys (noKeysList_mem hc1 hc)]
          · simp [rawHasKey_false_of_noKeys (noKeysList_mem hc2 hc)]
        have hp : ∀ o n q P, P ∈ goDiff f o n q → ∃ r, P.path = q ++ r :=
          fun o n q P => goDiff_path_extends f o n q P
        simp only [goDiff]
        split
        · split
          · rw [if_neg (by simp [hkey]), List.pairwise_append]
            refine ⟨attrDiffPatches_pairwise t1 (mergeAttributes a1) (mergeAttributes a2) p,
              diffNonKeyedChildren_ordered (goDiff f) hp c1 c2 p 0 t1
                (fun o n q ho hn => ih o n q (noKeysList_mem hc1 ho) (noKeysList_mem hc2 hn)),
              ?_⟩
            intro P hP Q hQ
            have hPp := attrDiffPatches_path hP
            rcases diffNonKeyedChildren_scope hp c1 c2 p 0 t1 Q hQ with hq | ⟨j, r2, _, hq⟩
            · rw [hPp, hq]
              exact pathLE_refl p
            · rw [hPp, hq]
              exact pathLE_append p (j :: r2)
          · exact List.pairwise_singleton _ _
        · exact List.pairwise_singleton _ _

/-- C2 counterexample: on the keyed test input of text_changed_in_keyed_elements
the emitted list addresses the subtree at child index 2 before the subtree at
child index 0, so patches for sibling subtrees do not appear in ascending
child-index order and the list is not path-ordered. -/
theorem diff_keyed_sibling_order_violation :
    (diff keyedOld keyedNew).map Patch.path = [[0, 0, 2, 0], [0, 0, 0]] ∧
      pathLE [0, 0, 2, 0] [0, 0, 0] = false ∧
      ¬(diff keyedOld keyedNew).Pairwise fun P Q => pathLE P.path Q.path = true := by
  refine ⟨rfl, rfl, ?_⟩
  intro h
  have h2 : diff keyedOld keyedNew =
      [Patch.changeText [0, 0, 2, 0] "item3 with changes",
       Patch.removeNode (some "article") [0, 0, 0]] := rfl
  rw [h2, List.pairwise_cons] at h
  have h3 := h.1 _ (List.mem_singleton.mpr rfl)
  exact absurd h3 (by decide)

/-- C2 amended: on trees free of key attributes (positional reconciliation
throughout) the patch list carries the full pre-order depth-first ordering of
the claim: every emitted patch sits at a weakly lexicographically
smaller-or-equal path than every later patch, so every patch addressed at a
node precedes every patch addressed at its descendants, attribute patches at a
node precede the structural child patches beneath it, and sibling subtrees
contribute patches in ascending child-index order.  Under keyed
reconciliation the sibling-order guarantee fails: RemoveNode patches for
unmatched old children are emitted after all matched-pair patches and may
address an earlier sibling subtree. -/
theorem diff_positional_patch_order :
    ∀ old new : Node, noKeys old = true → noKeys new = true →
      (diff old new).Pairwise fun P Q => pathLE P.path Q.path = true :=
  fun old new h1 h2 => goDiff_ordered (nodeSize old) old new [0] h1 h2

theorem diff_positional_patch_order_witness :
    (diff truncOld truncNew).Pairwise fun P Q => pathLE P.path Q.path = true :=
  diff_positional_patch_order truncOld truncNew rfl rfl

end Sauron
